import Mathlib

/-!
Formal model of the harvesting-and-matching engine in `src/findVideos.js`.

Strings are modelled as lists of characters (`Str`), JavaScript numbers as
`Option ℚ` where `none` stands for the non-finite values (NaN, Infinity) and
`some q` for a finite value.  Every numeric computation the verified claims
exercise stays on small integers and dyadic rationals, where IEEE doubles are
exact, so the rational model agrees with the JavaScript semantics there.
-/

/-- JavaScript strings, modelled as lists of characters. -/
abbrev Str := List Char

/-- JavaScript numbers: `none` models the non-finite values (NaN and the
infinities, which never need to be told apart in this program), `some q` a
finite value. -/
abbrev JSNum := Option ℚ

/-- Addition on `JSNum`; any non-finite operand is absorbing, as in JS
arithmetic on NaN (the only non-finite value reachable in this program). -/
def jsAdd : JSNum → JSNum → JSNum
  | some a, some b => some (a + b)
  | _, _ => none

/-- Subtraction on `JSNum`. -/
def jsSub : JSNum → JSNum → JSNum
  | some a, some b => some (a - b)
  | _, _ => none

/-- Multiplication on `JSNum`. -/
def jsMul : JSNum → JSNum → JSNum
  | some a, some b => some (a * b)
  | _, _ => none

/-- `Math.round`, which rounds half toward positive infinity: exactly
Mathlib's `round` on rationals.  `Math.round(NaN)` is NaN. -/
def jsRound : JSNum → Option ℤ
  | some a => some (round a)
  | none => none

/-- Decimal digit character for a single digit. -/
def digitChar (d : ℕ) : Char := Char.ofNat (48 + d)

/-- Fuel-driven decimal rendering (structural recursion so that concrete
instances evaluate inside the kernel); the fuel is always ample. -/
def natToCharsAux : ℕ → ℕ → List Char
  | 0, _ => []
  | fuel + 1, n =>
    if n < 10 then [digitChar n]
    else natToCharsAux fuel (n / 10) ++ [digitChar (n % 10)]

/-- Decimal rendering of a natural number, as produced by JS
`Number.prototype.toString()` on a non-negative integer. -/
def natToChars (n : ℕ) : List Char := natToCharsAux (n + 1) n

/-- Decimal rendering of an integer, as produced by JS string
interpolation of an integral number. -/
def intToChars (z : ℤ) : Str :=
  if z < 0 then '-' :: natToChars z.natAbs else natToChars z.toNat

/-- JS string interpolation of a number (`Option ℤ` is the shape every
interpolated number has in this program: an integer or NaN). -/
def jsNumToStr : Option ℤ → Str
  | some z => intToChars z
  | none => ['N', 'a', 'N']

/-- Numeric value of a digit character. -/
def digitVal (c : Char) : ℕ := c.toNat - 48

/-- Left-to-right accumulation of a decimal digit string; fails on the
first non-digit character. -/
def parseDigitsAux : Str → ℕ → Option ℕ
  | [], acc => some acc
  | c :: rest, acc =>
    if c.isDigit then parseDigitsAux rest (acc * 10 + digitVal c) else none

/-- The JS `Number` conversion, on the fragment of inputs this program
feeds it: the empty string converts to `0`, an unsigned decimal digit
string to its value, and everything else (in JS: any string that is not a
numeric literal) to NaN.  Signed, fractional, padded-with-blank and other
exotic numeric literals never occur here: the timestamp fields reaching
`Number` match `/\d+/` or are non-numeric garbage. -/
def jsNumber (s : Str) : JSNum :=
  if s = [] then some 0
  else (parseDigitsAux s 0).map (fun n => (n : ℚ))

/-- JS `String.prototype.split(":")`, on lists of characters. -/
def splitOnColon : Str → List Str
  | [] => [[]]
  | c :: rest =>
    if c = ':' then [] :: splitOnColon rest
    else
      match splitOnColon rest with
      | [] => [[c]]
      | p :: ps => (c :: p) :: ps

/-- `timestampToSeconds` (src/findVideos.js lines 45-55): split the
timestamp on `:`, convert each part with `Number`; three parts are read as
H:MM:SS, two parts as MM:SS, and any other shape returns 0. -/
def timestampToSeconds (timestamp : Str) : JSNum :=
  let parts := (splitOnColon timestamp).map jsNumber
  if parts.length = 3 then
    jsAdd (jsAdd (jsMul (parts.getD 0 none) (some 3600))
                 (jsMul (parts.getD 1 none) (some 60)))
          (parts.getD 2 none)
  else if parts.length = 2 then
    jsAdd (jsMul (parts.getD 0 none) (some 60)) (parts.getD 1 none)
  else some 0

/-- JS `String.prototype.padStart(2, "0")`. -/
def padStart2 (s : Str) : Str :=
  if 2 ≤ s.length then s else List.replicate (2 - s.length) '0' ++ s

/-- `secondsToTimestamp` (src/findVideos.js lines 58-72): format an
integral number of seconds as `HH:MM:SS`, or `MM:SS` when the hour field
is zero.  The only call sites pass integers (`Math.round` results and
non-negative test values), so the domain is ℤ; `Math.floor` on an exact
integer quotient is floor division (`Int.fdiv`) and the JS `%` operator is
the truncated remainder (`Int.tmod`). -/
def secondsToTimestamp (seconds : ℤ) : Str :=
  let hours := Int.fdiv seconds 3600
  let minutes := Int.fdiv (Int.tmod seconds 3600) 60
  let secs := Int.tmod seconds 60
  if 0 < hours then
    padStart2 (intToChars hours) ++ ':' ::
      (padStart2 (intToChars minutes) ++ ':' :: padStart2 (intToChars secs))
  else
    padStart2 (intToChars minutes) ++ ':' :: padStart2 (intToChars secs)

/-! ## String searching primitives (JS `toLowerCase`, `indexOf`, `includes`,
and the word-boundary regular expression of lines 891-897) -/

/-- JS `String.prototype.toLowerCase()`; the texts and keywords this
program handles are ASCII, where JS and Lean lower-casing agree. -/
def toLowerStr (s : Str) : Str := s.map Char.toLower

/-- `true` when `k` occurs in `t` starting at position `i`. -/
def occursAtB (k t : Str) (i : ℕ) : Bool :=
  decide ((t.drop i).take k.length = k)

/-- Index of the first occurrence of `k` in `t`, if any. -/
def firstOccurIdx (t k : Str) : Option ℕ :=
  (List.range (t.length + 1)).find? (fun i => occursAtB k t i)

/-- JS `String.prototype.indexOf`: position of the first occurrence, `-1`
when there is none. -/
def jsIndexOf (t k : Str) : ℤ :=
  match firstOccurIdx t k with
  | some i => (i : ℤ)
  | none => -1

/-- JS `String.prototype.includes`. -/
def jsIncludes (t k : Str) : Bool := decide (¬ jsIndexOf t k = -1)

/-- JS division as it appears in `estimateKeywordPosition`: division by
zero produces a non-finite value (`none`). -/
def jsDiv (a b : ℚ) : JSNum := if b = 0 then none else some (a / b)

/-- `estimateKeywordPosition` (src/findVideos.js lines 75-86): fractional
position of the first occurrence of the keyword in the text, `0` when the
keyword does not occur. -/
def estimateKeywordPosition (text keyword : Str) : JSNum :=
  let keywordLower := toLowerStr keyword
  let textLower := toLowerStr text
  let keywordIndex := jsIndexOf textLower keywordLower
  if keywordIndex = -1 then some 0
  else jsDiv (keywordIndex : ℚ) (textLower.length : ℚ)

/-- Membership in the regex character class `[a-zA-Z0-9]`. -/
def isAlnum (c : Char) : Bool :=
  ('a' ≤ c && c ≤ 'z') || ('A' ≤ c && c ≤ 'Z') || ('0' ≤ c && c ≤ '9')

/-- Semantics of the word-boundary regular expression built at lines
891-897: `(^|[^a-zA-Z0-9])` + the regex-escaped keyword +
`([^a-zA-Z0-9]|$)`.  Because every metacharacter of the keyword is
escaped, the middle is a literal match, so `test` succeeds exactly when
the keyword occurs somewhere flanked on the left by the string start or a
non-alphanumeric character and on the right by a non-alphanumeric
character or the string end.  Both arguments are already lower-cased by
the caller, so the `i` flag adds nothing for the ASCII inputs handled
here. -/
def wordBoundaryTest (k t : Str) : Bool :=
  (List.range (t.length + 1)).any (fun i =>
    occursAtB k t i &&
    (decide (i = 0) || !(isAlnum (t.getD (i - 1) ' '))) &&
    (decide (i + k.length = t.length) || !(isAlnum (t.getD (i + k.length) ' '))))

/-- The per-keyword match decision of lines 883-899: exact-phrase mode is
case-insensitive substring containment, the default mode is the
word-boundary regular expression.  (Line 861 lower-cases the segment text
and line 881 the keyword before this decision.) -/
def keywordFoundIn (exactPhraseSearch : Bool) (keyword segText : Str) : Bool :=
  let keywordLower := toLowerStr keyword
  let segmentText := toLowerStr segText
  if exactPhraseSearch then jsIncludes segmentText keywordLower
  else wordBoundaryTest keywordLower segmentText

/-! ## Transcript segments and keyword matches (lines 856-937) -/

/-- A transcript segment as extracted by the segment parser: a raw
timestamp and a text. -/
structure Segment where
  timestamp : Str
  text : Str
deriving DecidableEq

instance : Inhabited Segment := ⟨⟨[], []⟩⟩

/-- One keyword match record, as pushed at lines 912-919. -/
structure KeywordMatch where
  keyword : Str
  originalTimestamp : Str
  preciseTimestamp : Str
  preciseTimeSeconds : Option ℤ
  text : Str
  url : Str
deriving DecidableEq

/-- `secondsToTimestamp` as applied to a possibly non-finite rounded
value; on NaN the JS code interpolates the string `NaN` for both the
minute and second fields. -/
def jsSecondsToTimestamp : Option ℤ → Str
  | some z => secondsToTimestamp z
  | none => "NaN:NaN".data

/-- The literal `&t=` glued between the candidate URL and the rounded
seconds at line 918. -/
def timeSuffix : Str := ['&', 't', '=']

/-- The inner keyword loop of lines 880-921 for one segment, given the
already-computed end time: for each keyword that matches, build a
`KeywordMatch` whose precise time is
`Math.round(startTimeSeconds + keywordPosition * segmentDuration)`. -/
def segmentMatches (keywords : List Str) (exactPhraseSearch : Bool)
    (videoUrl : Str) (seg : Segment) (endTimeSeconds : JSNum) :
    List KeywordMatch :=
  let startTimeSeconds := timestampToSeconds seg.timestamp
  let segmentDuration := jsSub endTimeSeconds startTimeSeconds
  keywords.filterMap (fun keyword =>
    if keywordFoundIn exactPhraseSearch keyword seg.text then
      let keywordPosition := estimateKeywordPosition seg.text keyword
      let preciseTimeSeconds :=
        jsRound (jsAdd startTimeSeconds (jsMul keywordPosition segmentDuration))
      some { keyword := keyword
             originalTimestamp := seg.timestamp
             preciseTimestamp := jsSecondsToTimestamp preciseTimeSeconds
             preciseTimeSeconds := preciseTimeSeconds
             text := seg.text
             url := videoUrl ++ timeSuffix ++ jsNumToStr preciseTimeSeconds }
    else none)

/-- The outer segment loop of lines 859-922: the end time of a segment is
the parsed start of the next segment, or `start + 5` for the last one. -/
def keywordScan (keywords : List Str) (exactPhraseSearch : Bool)
    (videoUrl : Str) : List Segment → List KeywordMatch
  | [] => []
  | seg :: rest =>
    let endTimeSeconds :=
      match rest with
      | [] => jsAdd (timestampToSeconds seg.timestamp) (some 5)
      | next :: _ => timestampToSeconds next.timestamp
    segmentMatches keywords exactPhraseSearch videoUrl seg endTimeSeconds ++
      keywordScan keywords exactPhraseSearch videoUrl rest

/-- The dedup key of line 930: the template string
`preciseTimeSeconds:text`. -/
def matchKey (m : KeywordMatch) : Str :=
  jsNumToStr m.preciseTimeSeconds ++ ':' :: m.text

/-- First-seen deduplication by a key function, with an explicit set of
already-seen keys: the shape of the `seenCombinations` loops at lines
240-248 and 925-937. -/
def dedupByKeyAux {α β : Type} [DecidableEq β] (key : α → β)
    (seen : List β) : List α → List α
  | [] => []
  | a :: rest =>
    if key a ∈ seen then dedupByKeyAux key seen rest
    else a :: dedupByKeyAux key (key a :: seen) rest

/-- The match dedup loop of lines 925-937. -/
def uniqueMatches (ms : List KeywordMatch) : List KeywordMatch :=
  dedupByKeyAux matchKey [] ms

/-! ## Selector cascade and scroll loop (lines 144-254) -/

/-- An anchor element, identified by the only attribute this code reads:
its `href` (the empty string models a missing/empty attribute, which is
falsy in JS). -/
structure Elem where
  href : Str
deriving DecidableEq

/-- The validity filter of lines 164-168: the element has a truthy `href`
containing `/watch?v=` or `/shorts/`. -/
def isValidVideoLink (el : Elem) : Bool :=
  !(decide (el.href = [])) &&
    (jsIncludes el.href "/watch?v=".data || jsIncludes el.href "/shorts/".data)

/-- `getAllVideoElements` (lines 158-178), over the per-selector query
results in selector order: keep the filtered results of the first selector
whose filtered result set is non-empty (the `break`), else continue; an
exhausted cascade returns the initial empty list. -/
def getAllVideoElements : List (List Elem) → List Elem
  | [] => []
  | found :: rest =>
    let validElements := found.filter isValidVideoLink
    if 0 < validElements.length then validElements
    else getAllVideoElements rest

/-- The mutable state of the scroll loop at lines 181-228. -/
structure ScrollState where
  videoElements : List Elem
  scrollAttempts : ℕ
  consecutiveNoChangeCount : ℕ
deriving DecidableEq

/-- `maxScrollAttempts` (line 185). -/
def maxScrollAttempts : ℕ := 20

/-- `maxConsecutiveNoChanges` (line 186). -/
def maxConsecutiveNoChanges : ℕ := 3

/-- The scroll loop of lines 189-228.  The DOM contents change only
through the external scrolling side effects, so the re-query result is
abstracted as a function `query` of the iteration at which it runs (the
value of `scrollAttempts` when `getAllVideoElements` is re-invoked). -/
def scrollLoop (query : ℕ → List Elem) (s : ScrollState) : ScrollState :=
  if h : s.videoElements.length < 100 ∧
      s.scrollAttempts < maxScrollAttempts ∧
      s.consecutiveNoChangeCount < maxConsecutiveNoChanges then
    let previousLength := s.videoElements.length
    let videoElements := query s.scrollAttempts
    let consecutiveNoChangeCount :=
      if videoElements.length = previousLength then
        s.consecutiveNoChangeCount + 1
      else 0
    scrollLoop query
      ⟨videoElements, s.scrollAttempts + 1, consecutiveNoChangeCount⟩
  else s
termination_by maxScrollAttempts - s.scrollAttempts
decreasing_by simp only [maxScrollAttempts] at *; omega

/-- The dedup pass of lines 240-248: walk the element list, skip falsy
hrefs and hrefs already in the seen set, and push each new href in
discovery order. -/
def collectUniqueLinks (seen : List Str) : List Elem → List Str
  | [] => []
  | a :: rest =>
    if ¬ a.href = [] ∧ a.href ∉ seen then
      a.href :: collectUniqueLinks (a.href :: seen) rest
    else collectUniqueLinks seen rest

/-- The whole link-collection phase (lines 181-253): run the scroll loop
from the initial query result, deduplicate, and return the first 100
unique links. -/
def collectVideoLinks (initial : List Elem) (query : ℕ → List Elem) :
    List Str :=
  (collectUniqueLinks [] (scrollLoop query ⟨initial, 0, 0⟩).videoElements).take
    100

/-! ## The per-candidate driver loop (lines 261-967) -/

/-- One aggregated result per video (lines 945-950). -/
structure VideoResult where
  videoId : Str
  videoTitle : Str
  url : Str
  «matches» : List KeywordMatch
deriving DecidableEq

/-- The body of the per-candidate loop, abstracted: everything between
`try {` (line 262) and the `catch` (line 964) either finishes normally —
producing a result to append, or skipping via one of the `continue`
statements / the empty-match branch (`none`) — or raises, which the model
renders as `Except.error`. -/
abbrev CandidateStep := Str → Except Str (Option VideoResult)

/-- The `for (const videoUrl of videoLinks)` loop of lines 261-967: a
thrown error is caught at the per-candidate boundary (lines 964-966), the
candidate contributes nothing, and the loop resumes with the next
candidate. -/
def processCandidates (process : CandidateStep) : List Str →
    List VideoResult
  | [] => []
  | u :: rest =>
    match process u with
    | Except.ok (some r) => r :: processCandidates process rest
    | Except.ok none => processCandidates process rest
    | Except.error _ => processCandidates process rest

/-! ## Specification-side comparison definitions -/

/-- Specification-side first-seen deduplication: keep each element's first
occurrence, in order.  Stated from the spec's words ("deduplicated,
order-preserving", "order = discovery order") for comparison with the
seen-set loops of the source. -/
def firstOccurrences {α : Type} [DecidableEq α] : List α → List α
  | [] => []
  | a :: l => a :: firstOccurrences (l.filter (fun b => decide (¬ b = a)))
termination_by l => l.length
decreasing_by
  exact Nat.lt_succ_of_le (List.length_filter_le _ _)

/-- Specification-side end time of segment `i`: the parsed start of
segment `i + 1`, or the segment's own parsed start plus five seconds when
`i` is the last index. -/
def endTimeOf (segs : List Segment) (i : ℕ) : JSNum :=
  if i + 1 < segs.length then
    timestampToSeconds (segs.getD (i + 1) default).timestamp
  else jsAdd (timestampToSeconds (segs.getD i default).timestamp) (some 5)

/-- Specification-side exact-phrase policy: the keyword is a
case-insensitive substring of the segment text. -/
def SubstringCI (keyword text : Str) : Prop :=
  ∃ pre post, toLowerStr text = pre ++ toLowerStr keyword ++ post

/-- Specification-side word-boundary policy: some case-insensitive
occurrence of the keyword is flanked on the left by the string start or a
non-alphanumeric character, and on the right by the string end or a
non-alphanumeric character. -/
def WordBoundaryCI (keyword text : Str) : Prop :=
  ∃ i, i + (toLowerStr keyword).length ≤ (toLowerStr text).length ∧
    ((toLowerStr text).drop i).take (toLowerStr keyword).length =
      toLowerStr keyword ∧
    (i = 0 ∨ isAlnum ((toLowerStr text).getD (i - 1) ' ') = false) ∧
    (i + (toLowerStr keyword).length = (toLowerStr text).length ∨
      isAlnum ((toLowerStr text).getD (i + (toLowerStr keyword).length) ' ') =
        false)

/-! ## Concrete fixtures used by witnesses and counterexamples -/

/-- A candidate-processing step that fails on one specific URL. -/
def failingStep : CandidateStep := fun u =>
  if u = "bad".data then Except.error "boom".data else Except.ok none

/-- One hundred distinct initial elements: an initial result set already
at the target count. -/
def bigInit : List Elem := (List.range 100).map (fun n => ⟨natToChars n⟩)

/-- Four distinct initial elements, the stable-source scenario of the
spec's testable property 5. -/
def smallInit : List Elem :=
  [⟨"u1".data⟩, ⟨"u2".data⟩, ⟨"u3".data⟩, ⟨"u4".data⟩]

/-- Two transcript segments whose timestamps are out of order: the second
starts before the first, so the first segment's computed duration is
negative. -/
def outOfOrderSegs : List Segment :=
  [⟨"00:10".data, "ab agent".data⟩, ⟨"00:05".data, "x".data⟩]

/-- A short-form candidate URL: it contains no query string. -/
def shortsUrl : Str := "https://www.youtube.com/shorts/abc".data

/-- A valid watch-URL anchor. -/
def elemA : Elem := ⟨"https://www.youtube.com/watch?v=a".data⟩

/-- An anchor whose href matches no recognized resource-URL shape. -/
def elemB : Elem := ⟨"x".data⟩

/-- Selector-cascade query results: strategies 0 and 1 yield no valid
element, strategy 2 yields one, strategy 3 would too but is never
reached. -/
def cascadeFixture : List (List Elem) := [[], [elemB], [elemA], [elemA]]

/-- A one-segment transcript matching the keyword `agent`. -/
def wSeg : Segment := ⟨"00:10".data, "agent".data⟩

/-- The rounded seconds the matcher computes for `wSeg` as the last (and
only) segment. -/
def wPts : Option ℤ :=
  jsRound (jsAdd (timestampToSeconds wSeg.timestamp)
    (jsMul (estimateKeywordPosition wSeg.text "agent".data)
      (jsSub (jsAdd (timestampToSeconds wSeg.timestamp) (some 5))
        (timestampToSeconds wSeg.timestamp))))

/-- The match the matcher produces for `wSeg` under the URL `shortsUrl`. -/
def wMatch : KeywordMatch :=
  { keyword := "agent".data
    originalTimestamp := wSeg.timestamp
    preciseTimestamp := jsSecondsToTimestamp wPts
    preciseTimeSeconds := wPts
    text := wSeg.text
    url := shortsUrl ++ timeSuffix ++ jsNumToStr wPts }

/-- The rounded seconds for `wSeg` when the supplied end time equals the
segment's own start (a zero duration). -/
def zPts : Option ℤ :=
  jsRound (jsAdd (timestampToSeconds wSeg.timestamp)
    (jsMul (estimateKeywordPosition wSeg.text "agent".data)
      (jsSub (timestampToSeconds wSeg.timestamp)
        (timestampToSeconds wSeg.timestamp))))

/-- The match produced from `wSeg` with a zero-duration end time. -/
def zMatch : KeywordMatch :=
  { keyword := "agent".data
    originalTimestamp := wSeg.timestamp
    preciseTimestamp := jsSecondsToTimestamp zPts
    preciseTimeSeconds := zPts
    text := wSeg.text
    url := "u".data ++ timeSuffix ++ jsNumToStr zPts }

/-- The rounded seconds the matcher computes for the first segment of
`outOfOrderSegs`: start `00:10`, end taken from the next segment's start
`00:05`, hence duration `-5`. -/
def cexPts : Option ℤ :=
  jsRound (jsAdd (timestampToSeconds "00:10".data)
    (jsMul (estimateKeywordPosition "ab agent".data "agent".data)
      (jsSub (timestampToSeconds "00:05".data)
        (timestampToSeconds "00:10".data))))

/-! # Lemmas -/

/-! ## Decimal digit strings -/

theorem digitChar_isDigit (d : ℕ) (h : d < 10) : (digitChar d).isDigit = true := by
  interval_cases d <;> decide

theorem digitVal_digitChar (d : ℕ) (h : d < 10) : digitVal (digitChar d) = d := by
  interval_cases d <;> decide

theorem natToCharsAux_ne_nil (fuel n : ℕ) (h : n < fuel) :
    ¬ natToCharsAux fuel n = [] := by
  cases fuel with
  | zero => omega
  | succ f =>
    unfold natToCharsAux
    split
    · simp
    · simp

theorem mem_natToCharsAux (fuel : ℕ) :
    ∀ n c, c ∈ natToCharsAux fuel n → c.isDigit = true := by
  induction fuel with
  | zero => simp [natToCharsAux]
  | succ f ih =>
    intro n c hc
    unfold natToCharsAux at hc
    by_cases h : n < 10
    · rw [if_pos h] at hc
      simp only [List.mem_singleton] at hc
      subst hc
      exact digitChar_isDigit n h
    · rw [if_neg h] at hc
      rcases List.mem_append.mp hc with hc | hc
      · exact ih _ c hc
      · simp only [List.mem_singleton] at hc
        subst hc
        exact digitChar_isDigit _ (Nat.mod_lt _ (by omega))

theorem parseDigitsAux_append (a b : Str) : ∀ acc,
    parseDigitsAux (a ++ b) acc =
      (parseDigitsAux a acc).bind (fun r => parseDigitsAux b r) := by
  induction a with
  | nil => intro acc; rfl
  | cons c cs ih =>
    intro acc
    simp only [List.cons_append, parseDigitsAux]
    by_cases h : c.isDigit
    · rw [if_pos h, if_pos h]
      rw [show (cs.append b) = cs ++ b from rfl, ih]
    · rw [if_neg h, if_neg h]
      rfl

theorem parseDigitsAux_natToCharsAux (fuel : ℕ) : ∀ n acc, n < fuel →
    parseDigitsAux (natToCharsAux fuel n) acc =
      some (acc * 10 ^ (natToCharsAux fuel n).length + n) := by
  induction fuel with
  | zero => intro n acc h; omega
  | succ f ih =>
    intro n acc h
    by_cases h10 : n < 10
    · unfold natToCharsAux
      rw [if_pos h10]
      simp [parseDigitsAux, digitChar_isDigit n h10, digitVal_digitChar n h10]
    · unfold natToCharsAux
      rw [if_neg h10]
      rw [parseDigitsAux_append]
      have hdiv : n / 10 < f := by
        have := Nat.div_lt_self (show 0 < n by omega) (show 1 < 10 by omega)
        omega
      rw [ih (n / 10) acc hdiv]
      have hm : n % 10 < 10 := Nat.mod_lt _ (by omega)
      simp only [Option.some_bind, parseDigitsAux, digitChar_isDigit _ hm,
        if_pos, digitVal_digitChar _ hm, List.length_append,
        List.length_singleton]
      congr 1
      have hdm := Nat.div_add_mod n 10
      calc (acc * 10 ^ (natToCharsAux f (n / 10)).length + n / 10) * 10 + n % 10
          = acc * (10 ^ (natToCharsAux f (n / 10)).length * 10) +
              (10 * (n / 10) + n % 10) := by ring
        _ = acc * 10 ^ ((natToCharsAux f (n / 10)).length + 1) + n := by
            rw [hdm, pow_succ]

theorem natToChars_ne_nil (n : ℕ) : ¬ natToChars n = [] :=
  natToCharsAux_ne_nil (n + 1) n (by omega)

theorem mem_natToChars (n : ℕ) : ∀ c ∈ natToChars n, c.isDigit = true :=
  mem_natToCharsAux (n + 1) n

theorem parse_natToChars (n : ℕ) : parseDigitsAux (natToChars n) 0 = some n := by
  have h := parseDigitsAux_natToCharsAux (n + 1) n 0 (by omega)
  simpa using h

/-- Evaluation helper: a non-empty digit string converts to its value. -/
theorem jsNumber_digits (s : Str) (n : ℕ) (hne : ¬ s = [])
    (h : parseDigitsAux s 0 = some n) : jsNumber s = some (n : ℚ) := by
  unfold jsNumber
  rw [if_neg hne, h]
  rfl

theorem jsNumber_natToChars (n : ℕ) : jsNumber (natToChars n) = some (n : ℚ) :=
  jsNumber_digits _ n (natToChars_ne_nil n) (parse_natToChars n)

theorem parseDigitsAux_zero_cons (s : Str) :
    parseDigitsAux ('0' :: s) 0 = parseDigitsAux s 0 := by
  have h : digitVal '0' = 0 := by decide
  simp [parseDigitsAux, h]

theorem jsNumber_padStart2_natToChars (n : ℕ) :
    jsNumber (padStart2 (natToChars n)) = some (n : ℚ) := by
  unfold padStart2
  by_cases h : 2 ≤ (natToChars n).length
  · rw [if_pos h]
    exact jsNumber_natToChars n
  · rw [if_neg h]
    have h1 : (natToChars n).length = 1 := by
      have hpos : 0 < (natToChars n).length :=
        List.length_pos.mpr (natToChars_ne_nil n)
      omega
    rw [h1]
    show jsNumber (List.replicate 1 '0' ++ natToChars n) = some (n : ℚ)
    rw [List.replicate_one, List.singleton_append]
    unfold jsNumber
    rw [if_neg (by simp), parseDigitsAux_zero_cons, parse_natToChars n]
    rfl

theorem mem_padStart2 (s : Str) (c : Char) (h : c ∈ padStart2 s) :
    c = '0' ∨ c ∈ s := by
  unfold padStart2 at h
  split at h
  · exact Or.inr h
  · rcases List.mem_append.mp h with h | h
    · exact Or.inl (List.eq_of_mem_replicate h)
    · exact Or.inr h

theorem not_colon_padStart2_natToChars (n : ℕ) :
    ':' ∉ padStart2 (natToChars n) := by
  intro h
  rcases mem_padStart2 _ _ h with h | h
  · exact absurd h (by decide)
  · have := mem_natToChars n ':' h
    exact absurd this (by decide)

/-! ## Splitting on the colon -/

theorem splitOnColon_no_colon (s : Str) (h : ':' ∉ s) : splitOnColon s = [s] := by
  induction s with
  | nil => rfl
  | cons c cs ih =>
    simp only [List.mem_cons, not_or] at h
    unfold splitOnColon
    rw [if_neg (fun hc => h.1 hc.symm), ih h.2]

theorem splitOnColon_append (a b : Str) (h : ':' ∉ a) :
    splitOnColon (a ++ ':' :: b) = a :: splitOnColon b := by
  induction a with
  | nil =>
    show splitOnColon (':' :: b) = [] :: splitOnColon b
    conv_lhs => unfold splitOnColon
    rw [if_pos rfl]
  | cons c cs ih =>
    simp only [List.mem_cons, not_or] at h
    show splitOnColon (c :: (cs ++ ':' :: b)) = (c :: cs) :: splitOnColon b
    conv_lhs => unfold splitOnColon
    rw [if_neg (fun hc => h.1 hc.symm), ih h.2]

/-! ## The TimeCodec round trip -/

theorem intToChars_natCast (k : ℕ) : intToChars (k : ℤ) = natToChars k := by
  unfold intToChars
  rw [if_neg (by exact_mod_cast Int.not_lt.mpr (Int.ofNat_nonneg k))]
  rfl

theorem secondsToTimestamp_natCast (s : ℕ) :
    secondsToTimestamp (s : ℤ) =
      if 0 < s / 3600 then
        padStart2 (natToChars (s / 3600)) ++ ':' ::
          (padStart2 (natToChars (s % 3600 / 60)) ++ ':' ::
            padStart2 (natToChars (s % 60)))
      else
        padStart2 (natToChars (s % 3600 / 60)) ++ ':' ::
          padStart2 (natToChars (s % 60)) := by
  have h1 : Int.fdiv (s : ℤ) 3600 = ((s / 3600 : ℕ) : ℤ) := by
    rw [Int.fdiv_eq_ediv] <;> omega
  have h2 : Int.tmod (s : ℤ) 3600 = ((s % 3600 : ℕ) : ℤ) := by
    rw [Int.tmod_eq_emod] <;> omega
  have h3 : Int.fdiv ((s % 3600 : ℕ) : ℤ) 60 = ((s % 3600 / 60 : ℕ) : ℤ) := by
    rw [Int.fdiv_eq_ediv] <;> omega
  have h4 : Int.tmod (s : ℤ) 60 = ((s % 60 : ℕ) : ℤ) := by
    rw [Int.tmod_eq_emod] <;> omega
  unfold secondsToTimestamp
  simp only []
  rw [h1, h2, h3, h4, intToChars_natCast, intToChars_natCast,
    intToChars_natCast]
  simp only [Int.natCast_pos]

/-- Parsing a three-field timestamp whose fields contain no colon. -/
theorem timestampToSeconds_three (a b c : Str) (ha : ':' ∉ a) (hb : ':' ∉ b)
    (hc : ':' ∉ c) :
    timestampToSeconds (a ++ ':' :: (b ++ ':' :: c)) =
      jsAdd (jsAdd (jsMul (jsNumber a) (some 3600))
        (jsMul (jsNumber b) (some 60))) (jsNumber c) := by
  unfold timestampToSeconds
  rw [splitOnColon_append _ _ ha, splitOnColon_append _ _ hb,
    splitOnColon_no_colon _ hc]
  rfl

/-- Parsing a two-field timestamp whose fields contain no colon. -/
theorem timestampToSeconds_two (a b : Str) (ha : ':' ∉ a) (hb : ':' ∉ b) :
    timestampToSeconds (a ++ ':' :: b) =
      jsAdd (jsMul (jsNumber a) (some 60)) (jsNumber b) := by
  unfold timestampToSeconds
  rw [splitOnColon_append _ _ ha, splitOnColon_no_colon _ hb]
  rfl

/-- C3 support: formatting then parsing is the identity on every natural
number of seconds. -/
theorem parse_format_eq (s : ℕ) :
    timestampToSeconds (secondsToTimestamp (s : ℤ)) = some (s : ℚ) := by
  rw [secondsToTimestamp_natCast]
  by_cases hh : 0 < s / 3600
  · rw [if_pos hh]
    rw [timestampToSeconds_three _ _ _ (not_colon_padStart2_natToChars _)
      (not_colon_padStart2_natToChars _) (not_colon_padStart2_natToChars _)]
    rw [jsNumber_padStart2_natToChars, jsNumber_padStart2_natToChars,
      jsNumber_padStart2_natToChars]
    simp only [jsMul, jsAdd]
    have harith : s / 3600 * 3600 + s % 3600 / 60 * 60 + s % 60 = s := by omega
    congr 1
    exact_mod_cast harith
  · rw [if_neg hh]
    rw [timestampToSeconds_two _ _ (not_colon_padStart2_natToChars _)
      (not_colon_padStart2_natToChars _)]
    rw [jsNumber_padStart2_natToChars, jsNumber_padStart2_natToChars]
    simp only [jsMul, jsAdd]
    have harith : s % 3600 / 60 * 60 + s % 60 = s := by omega
    congr 1
    exact_mod_cast harith

theorem not_colon_natToChars (n : ℕ) : ':' ∉ natToChars n := by
  intro h
  have := mem_natToChars n ':' h
  exact absurd this (by decide)

/-! ## First-seen deduplication -/

theorem dedupByKeyAux_sublist {α β : Type} [DecidableEq β] (key : α → β) :
    ∀ (l : List α) (seen : List β), (dedupByKeyAux key seen l).Sublist l := by
  intro l
  induction l with
  | nil => intro seen; simp [dedupByKeyAux]
  | cons a rest ih =>
    intro seen
    unfold dedupByKeyAux
    split
    · exact (ih seen).cons a
    · exact (ih (key a :: seen)).cons₂ a

theorem dedupByKeyAux_countP_of_mem {α β : Type} [DecidableEq β]
    (key : α → β) (p : α → Bool) (K : β) (hp : ∀ a, p a = true ↔ key a = K) :
    ∀ (l : List α) (seen : List β), K ∈ seen →
      (dedupByKeyAux key seen l).countP p = 0 := by
  intro l
  induction l with
  | nil => intro seen _; simp [dedupByKeyAux]
  | cons a rest ih =>
    intro seen hK
    unfold dedupByKeyAux
    split
    · exact ih seen hK
    · rename_i hnot
      have hpa : p a = false := by
        by_contra hc
        have hpt : p a = true := by simpa using hc
        exact hnot ((hp a).mp hpt ▸ hK)
      rw [List.countP_cons, hpa,
        ih (key a :: seen) (List.mem_cons_of_mem _ hK)]
      simp

theorem dedupByKeyAux_countP {α β : Type} [DecidableEq β]
    (key : α → β) (p : α → Bool) (K : β) (hp : ∀ a, p a = true ↔ key a = K) :
    ∀ (l : List α) (seen : List β), K ∉ seen →
      (dedupByKeyAux key seen l).countP p = min 1 (l.countP p) := by
  intro l
  induction l with
  | nil => intro seen _; simp [dedupByKeyAux]
  | cons a rest ih =>
    intro seen hK
    unfold dedupByKeyAux
    by_cases hpa : p a = true
    · have hk := (hp a).mp hpa
      subst hk
      rw [if_neg hK]
      rw [List.countP_cons, List.countP_cons, hpa,
        dedupByKeyAux_countP_of_mem key p (key a) hp rest (key a :: seen)
          (List.mem_cons_self _ _)]
      have hmin : min 1 (List.countP p rest + 1) = 1 :=
        Nat.min_eq_left (by omega)
      simp [hmin]
    · have hpa' : p a = false := by simpa using hpa
      have hkne : ¬ key a = K := fun h => hpa ((hp a).mpr h)
      split
      · rw [ih seen hK, List.countP_cons, hpa']
        simp
      · rw [List.countP_cons, List.countP_cons, hpa',
          ih (key a :: seen)
            (fun hc => by rcases List.mem_cons.mp hc with h | h
                          · exact hkne h.symm
                          · exact hK h)]
        simp

theorem dedupByKeyAux_find? {α β : Type} [DecidableEq β]
    (key : α → β) (p : α → Bool) (K : β) (hp : ∀ a, p a = true ↔ key a = K) :
    ∀ (l : List α) (seen : List β), K ∉ seen →
      (dedupByKeyAux key seen l).find? p = l.find? p := by
  intro l
  induction l with
  | nil => intro seen _; simp [dedupByKeyAux]
  | cons a rest ih =>
    intro seen hK
    unfold dedupByKeyAux
    by_cases hpa : p a = true
    · have hk := (hp a).mp hpa
      subst hk
      rw [if_neg hK]
      rw [List.find?_cons_of_pos _ hpa, List.find?_cons_of_pos _ hpa]
    · have hpa' : ¬ p a = true := hpa
      have hkne : ¬ key a = K := fun h => hpa ((hp a).mpr h)
      split
      · rw [ih seen hK, List.find?_cons_of_neg _ hpa']
      · rw [List.find?_cons_of_neg _ hpa', List.find?_cons_of_neg _ hpa',
          ih (key a :: seen)
            (fun hc => by rcases List.mem_cons.mp hc with h | h
                          · exact hkne h.symm
                          · exact hK h)]

theorem dedupByKeyAux_keys {α β : Type} [DecidableEq β] (key : α → β) :
    ∀ (l : List α) (seen : List β),
      ((dedupByKeyAux key seen l).map key).Nodup ∧
        ∀ b ∈ (dedupByKeyAux key seen l).map key, b ∉ seen := by
  intro l
  induction l with
  | nil => intro seen; simp [dedupByKeyAux]
  | cons a rest ih =>
    intro seen
    unfold dedupByKeyAux
    split
    · exact ih seen
    · rename_i hmem
      obtain ⟨hnd, hdisj⟩ := ih (key a :: seen)
      refine ⟨?_, ?_⟩
      · simp only [List.map_cons, List.nodup_cons]
        exact ⟨fun hcon => (hdisj _ hcon) (List.mem_cons_self _ _), hnd⟩
      · intro b hb
        simp only [List.map_cons, List.mem_cons] at hb
        rcases hb with rfl | hb
        · exact hmem
        · exact fun hbs => (hdisj b hb) (List.mem_cons_of_mem _ hbs)

theorem dedupByKeyAux_congr_seen {α β : Type} [DecidableEq β] (key : α → β) :
    ∀ (l : List α) (s₁ s₂ : List β), (∀ b, b ∈ s₁ ↔ b ∈ s₂) →
      dedupByKeyAux key s₁ l = dedupByKeyAux key s₂ l := by
  intro l
  induction l with
  | nil => intro s₁ s₂ _; rfl
  | cons a rest ih =>
    intro s₁ s₂ hiff
    unfold dedupByKeyAux
    by_cases hm : key a ∈ s₁
    · rw [if_pos hm, if_pos ((hiff _).mp hm), ih _ _ hiff]
    · rw [if_neg hm, if_neg (fun hc => hm ((hiff _).mpr hc))]
      exact congrArg (a :: ·)
        (ih _ _ (fun b => by simp [List.mem_cons, hiff b]))

theorem dedupById_eq_firstOccurrences {α : Type} [DecidableEq α] :
    ∀ (l : List α) (seen : List α),
      dedupByKeyAux id seen l =
        firstOccurrences (l.filter (fun b => decide (¬ b ∈ seen))) := by
  intro l
  induction l with
  | nil => intro seen; simp [dedupByKeyAux, firstOccurrences]
  | cons a rest ih =>
    intro seen
    unfold dedupByKeyAux
    by_cases hm : a ∈ seen
    · rw [if_pos (show id a ∈ seen from hm), ih seen, List.filter_cons,
        if_neg (by simpa using hm)]
    · rw [if_neg (show ¬ id a ∈ seen from hm), List.filter_cons,
        if_pos (by simpa using hm)]
      rw [firstOccurrences]
      simp only [id_eq]
      rw [ih (a :: seen)]
      congr 1
      rw [List.filter_filter]
      congr 1
      apply List.filter_congr
      intro b _
      have hiff : (¬ b ∈ a :: seen) ↔ ((¬ b = a) ∧ ¬ b ∈ seen) := by
        rw [List.mem_cons, not_or]
      simp [hiff]

/-! ## Injectivity of the rendered dedup key -/

theorem natToChars_inj (m n : ℕ) (h : natToChars m = natToChars n) : m = n := by
  have h1 := parse_natToChars m
  rw [h, parse_natToChars n] at h1
  exact (Option.some_inj.mp h1).symm

theorem mem_intToChars (z : ℤ) (c : Char) (h : c ∈ intToChars z) :
    c = '-' ∨ c.isDigit = true := by
  unfold intToChars at h
  split at h
  · rcases List.mem_cons.mp h with rfl | h
    · exact Or.inl rfl
    · exact Or.inr (mem_natToChars _ c h)
  · exact Or.inr (mem_natToChars _ c h)

theorem intToChars_inj (y z : ℤ) (h : intToChars y = intToChars z) : y = z := by
  unfold intToChars at h
  split at h <;> split at h
  · simp only [List.cons.injEq, true_and] at h
    have := natToChars_inj _ _ h
    omega
  · exfalso
    have hmem : '-' ∈ natToChars z.toNat := by
      rw [← h]
      exact List.mem_cons_self _ _
    exact absurd (mem_natToChars _ '-' hmem) (by decide)
  · exfalso
    have hmem : '-' ∈ natToChars y.toNat := by
      rw [h]
      exact List.mem_cons_self _ _
    exact absurd (mem_natToChars _ '-' hmem) (by decide)
  · have := natToChars_inj _ _ h
    omega

theorem jsNumToStr_inj (o₁ o₂ : Option ℤ) (h : jsNumToStr o₁ = jsNumToStr o₂) :
    o₁ = o₂ := by
  cases o₁ with
  | none =>
    cases o₂ with
    | none => rfl
    | some z =>
      exfalso
      have hmem : 'N' ∈ intToChars z := by
        rw [show intToChars z = jsNumToStr (some z) from rfl, ← h]
        decide
      rcases mem_intToChars _ _ hmem with hc | hc
      · exact absurd hc (by decide)
      · exact absurd hc (by decide)
  | some y =>
    cases o₂ with
    | none =>
      exfalso
      have hmem : 'N' ∈ intToChars y := by
        rw [show intToChars y = jsNumToStr (some y) from rfl, h]
        decide
      rcases mem_intToChars _ _ hmem with hc | hc
      · exact absurd hc (by decide)
      · exact absurd hc (by decide)
    | some z => exact congrArg some (intToChars_inj y z h)

theorem not_colon_jsNumToStr (o : Option ℤ) : ':' ∉ jsNumToStr o := by
  intro h
  cases o with
  | none => exact absurd h (by decide)
  | some z =>
    rcases mem_intToChars _ _ h with hc | hc
    · exact absurd hc (by decide)
    · exact absurd hc (by decide)

theorem not_qmark_jsNumToStr (o : Option ℤ) : '?' ∉ jsNumToStr o := by
  intro h
  cases o with
  | none => exact absurd h (by decide)
  | some z =>
    rcases mem_intToChars _ _ h with hc | hc
    · exact absurd hc (by decide)
    · exact absurd hc (by decide)

theorem append_colon_inj (a : Str) : ∀ (b t t' : Str), ':' ∉ a → ':' ∉ b →
    a ++ ':' :: t = b ++ ':' :: t' → a = b ∧ t = t' := by
  induction a with
  | nil =>
    intro b t t' _ hb h
    cases b with
    | nil => simpa using h
    | cons d bs =>
      exfalso
      simp only [List.nil_append, List.cons_append, List.cons.injEq] at h
      exact hb (h.1 ▸ List.mem_cons_self d bs)
  | cons c as ih =>
    intro b t t' ha hb h
    cases b with
    | nil =>
      exfalso
      simp only [List.cons_append, List.nil_append, List.cons.injEq] at h
      exact ha (h.1.symm ▸ List.mem_cons_self c as)
    | cons d bs =>
      simp only [List.cons_append, List.cons.injEq] at h
      simp only [List.mem_cons, not_or] at ha hb
      obtain ⟨h1, h2⟩ := ih bs t t' ha.2 hb.2 h.2
      exact ⟨by rw [h.1, h1], h2⟩

theorem matchKey_eq_iff (m : KeywordMatch) (pts : Option ℤ) (t : Str) :
    matchKey m = jsNumToStr pts ++ ':' :: t ↔
      m.preciseTimeSeconds = pts ∧ m.text = t := by
  constructor
  · intro h
    obtain ⟨h1, h2⟩ := append_colon_inj _ _ _ _ (not_colon_jsNumToStr _)
      (not_colon_jsNumToStr _) h
    exact ⟨jsNumToStr_inj _ _ h1, h2⟩
  · rintro ⟨h1, h2⟩
    unfold matchKey
    rw [h1, h2]

/-! # Claim theorems -/

/-- C3: for every non-negative integer `s`, parsing the formatted
timestamp returns the original value:
`timestampToSeconds (secondsToTimestamp s) = s` — in particular for `s` in
0, 5, 59, 60, 3599, 3600, 7325, and with no overflow possible in the hour
field of the model. -/
theorem timeCodecRoundTrip :
    ∀ s : ℕ, timestampToSeconds (secondsToTimestamp (s : ℤ)) = some (s : ℚ) :=
  parse_format_eq

/-- C8: `timestampToSeconds` splits on `:` and reads 3 parts as H:MM:SS
and 2 parts as MM:SS; every input of any other shape returns 0 (the
function is total, so it never raises); in particular
`parse "garbage" = 0`, `parse "1:02:03" = 3723`, `parse "02:03" = 123`. -/
theorem timestampParseShape :
    (∀ t : Str, ¬ (splitOnColon t).length = 2 →
      ¬ (splitOnColon t).length = 3 → timestampToSeconds t = some 0) ∧
    (∀ h m s : ℕ,
      timestampToSeconds
          (natToChars h ++ ':' :: (natToChars m ++ ':' :: natToChars s)) =
        some ((h * 3600 + m * 60 + s : ℕ) : ℚ)) ∧
    (∀ m s : ℕ,
      timestampToSeconds (natToChars m ++ ':' :: natToChars s) =
        some ((m * 60 + s : ℕ) : ℚ)) ∧
    timestampToSeconds "garbage".data = some 0 ∧
    timestampToSeconds "1:02:03".data = some 3723 ∧
    timestampToSeconds "02:03".data = some 123 := by
  refine ⟨?_, ?_, ?_, by decide, ?_, ?_⟩
  · intro t h2 h3
    unfold timestampToSeconds
    simp only [List.length_map]
    rw [if_neg h3, if_neg h2]
  · intro h m s
    rw [timestampToSeconds_three _ _ _ (not_colon_natToChars _)
      (not_colon_natToChars _) (not_colon_natToChars _),
      jsNumber_natToChars, jsNumber_natToChars, jsNumber_natToChars]
    simp only [jsMul, jsAdd]
    congr 1
    push_cast
    ring
  · intro m s
    rw [timestampToSeconds_two _ _ (not_colon_natToChars _)
      (not_colon_natToChars _), jsNumber_natToChars, jsNumber_natToChars]
    simp only [jsMul, jsAdd]
    congr 1
    push_cast
    ring
  · have hs : splitOnColon "1:02:03".data = ["1".data, "02".data, "03".data] :=
      by decide
    unfold timestampToSeconds
    rw [hs]
    simp [jsNumber_digits "1".data 1 (by decide) (by decide),
      jsNumber_digits "02".data 2 (by decide) (by decide),
      jsNumber_digits "03".data 3 (by decide) (by decide), jsAdd, jsMul]
    norm_num
  · have hs : splitOnColon "02:03".data = ["02".data, "03".data] := by decide
    unfold timestampToSeconds
    rw [hs]
    simp [jsNumber_digits "02".data 2 (by decide) (by decide),
      jsNumber_digits "03".data 3 (by decide) (by decide), jsAdd, jsMul]
    norm_num

/-- Witness for C8: a four-part timestamp is of neither recognized shape
and parses to 0. -/
theorem timestampParseShape_witness :
    timestampToSeconds "a:b:c:d".data = some 0 :=
  timestampParseShape.1 "a:b:c:d".data (by decide) (by decide)

/-- C9: an error raised while processing one candidate is caught at the
per-candidate boundary: the candidate is skipped and every remaining
candidate is still processed, so the run is never aborted. -/
theorem perCandidateErrorSkipped (process : CandidateStep)
    (pre post : List Str) (u e : Str) (h : process u = Except.error e) :
    processCandidates process (pre ++ u :: post) =
      processCandidates process pre ++ processCandidates process post := by
  induction pre with
  | nil => simp [processCandidates, h]
  | cons a pre ih =>
    simp only [List.cons_append, processCandidates]
    cases hp : process a with
    | error err => exact ih
    | ok o =>
      cases o with
      | none => exact ih
      | some r => simp [ih]

/-- Witness for C9: with a step that fails on the middle URL, the driver
still returns the results of the flanking candidates. -/
theorem perCandidateErrorSkipped_witness :
    processCandidates failingStep (["a".data] ++ "bad".data :: ["c".data]) =
      processCandidates failingStep ["a".data] ++
        processCandidates failingStep ["c".data] :=
  perCandidateErrorSkipped failingStep ["a".data] ["c".data] "bad".data
    "boom".data rfl

/-- C2: after all keywords are evaluated against all segments of one
candidate, matches are deduplicated by the pair
`(preciseTimeSeconds, text)` in first-seen order, the key ignoring the
keyword: at most one match per pair survives (exactly one when the pair
occurs at all), and the survivor is the first-seen one. -/
theorem matchDedupCollapse (kws : List Str) (ex : Bool) (url : Str)
    (segs : List Segment) (pts : Option ℤ) (t : Str) :
    ((uniqueMatches (keywordScan kws ex url segs)).countP
        (fun m => decide (m.preciseTimeSeconds = pts ∧ m.text = t)) =
      min 1 ((keywordScan kws ex url segs).countP
        (fun m => decide (m.preciseTimeSeconds = pts ∧ m.text = t)))) ∧
    ((uniqueMatches (keywordScan kws ex url segs)).find?
        (fun m => decide (m.preciseTimeSeconds = pts ∧ m.text = t)) =
      (keywordScan kws ex url segs).find?
        (fun m => decide (m.preciseTimeSeconds = pts ∧ m.text = t))) := by
  have hp : ∀ m : KeywordMatch,
      (decide (m.preciseTimeSeconds = pts ∧ m.text = t)) = true ↔
        matchKey m = jsNumToStr pts ++ ':' :: t := by
    intro m
    rw [decide_eq_true_iff]
    exact (matchKey_eq_iff m pts t).symm
  exact ⟨dedupByKeyAux_countP matchKey _ _ hp _ [] (by simp),
    dedupByKeyAux_find? matchKey _ _ hp _ [] (by simp)⟩

theorem mem_segmentMatches_url (kws : List Str) (ex : Bool) (url : Str)
    (seg : Segment) (endS : JSNum) (m : KeywordMatch)
    (hm : m ∈ segmentMatches kws ex url seg endS) :
    m.url = url ++ timeSuffix ++ jsNumToStr m.preciseTimeSeconds := by
  unfold segmentMatches at hm
  simp only [List.mem_filterMap] at hm
  obtain ⟨kw, _, hkw⟩ := hm
  split at hkw
  · have h := Option.some_inj.mp hkw
    rw [← h]
  · exact absurd hkw (by simp)

theorem keywordScan_cons (kws : List Str) (ex : Bool) (url : Str)
    (seg : Segment) (rest : List Segment) :
    keywordScan kws ex url (seg :: rest) =
      segmentMatches kws ex url seg
        (match rest with
          | [] => jsAdd (timestampToSeconds seg.timestamp) (some 5)
          | next :: _ => timestampToSeconds next.timestamp) ++
        keywordScan kws ex url rest := rfl

theorem mem_keywordScan_url (kws : List Str) (ex : Bool) (url : Str) :
    ∀ (segs : List Segment) (m : KeywordMatch),
      m ∈ keywordScan kws ex url segs →
      m.url = url ++ timeSuffix ++ jsNumToStr m.preciseTimeSeconds := by
  intro segs
  induction segs with
  | nil => intro m hm; simp [keywordScan] at hm
  | cons seg rest ih =>
    intro m hm
    rw [keywordScan_cons] at hm
    rcases List.mem_append.mp hm with h | h
    · exact mem_segmentMatches_url _ _ _ _ _ _ h
    · exact ih m h

/-- C10: every retained match's URL is the candidate URL with the literal
`&t=` and the rounded seconds appended, unconditionally; in particular a
question mark appears in the produced URL exactly when the candidate URL
already had one, so a short-form `/shorts/` URL (no query string) does not
receive a well-formed `?`-introduced query parameter. -/
theorem matchUrlAmpersand (kws : List Str) (ex : Bool) (url : Str)
    (segs : List Segment) (m : KeywordMatch)
    (hm : m ∈ uniqueMatches (keywordScan kws ex url segs)) :
    m.url = url ++ timeSuffix ++ jsNumToStr m.preciseTimeSeconds ∧
      ('?' ∈ m.url ↔ '?' ∈ url) := by
  have hmem : m ∈ keywordScan kws ex url segs :=
    (dedupByKeyAux_sublist matchKey _ []).subset hm
  have hurl := mem_keywordScan_url kws ex url segs m hmem
  refine ⟨hurl, ?_⟩
  rw [hurl]
  simp only [List.mem_append]
  constructor
  · rintro ((h | h) | h)
    · exact h
    · exact absurd h (by decide)
    · exact absurd h (not_qmark_jsNumToStr _)
  · intro h
    exact Or.inl (Or.inl h)

theorem getAllVideoElements_cons_empty (r : List Elem)
    (rest : List (List Elem)) (h : r.filter isValidVideoLink = []) :
    getAllVideoElements (r :: rest) = getAllVideoElements rest := by
  simp only [getAllVideoElements, h]
  rfl

theorem getAllVideoElements_cons_found (r : List Elem)
    (rest : List (List Elem)) (h : ¬ r.filter isValidVideoLink = []) :
    getAllVideoElements (r :: rest) = r.filter isValidVideoLink := by
  simp only [getAllVideoElements]
  rw [if_pos (List.length_pos.mpr h)]

theorem getAllVideoElements_all_empty :
    ∀ rs : List (List Elem), (∀ r ∈ rs, r.filter isValidVideoLink = []) →
      getAllVideoElements rs = [] := by
  intro rs
  induction rs with
  | nil => intro _; rfl
  | cons r rest ih =>
    intro h
    rw [getAllVideoElements_cons_empty r rest (h r (List.mem_cons_self _ _))]
    exact ih (fun x hx => h x (List.mem_cons_of_mem _ hx))

theorem getAllVideoElements_first :
    ∀ (rs : List (List Elem)) (i : ℕ), i < rs.length →
      (∀ j, j < i → (rs.getD j []).filter isValidVideoLink = []) →
      ¬ (rs.getD i []).filter isValidVideoLink = [] →
      ∀ tail, getAllVideoElements (rs.take (i + 1) ++ tail) =
        (rs.getD i []).filter isValidVideoLink := by
  intro rs
  induction rs with
  | nil => intro i hi; simp at hi
  | cons r rest ih =>
    intro i hi hprev hcur tail
    cases i with
    | zero =>
      simp only [List.getD_cons_zero] at hcur ⊢
      exact getAllVideoElements_cons_found r tail hcur
    | succ j =>
      have h0 : r.filter isValidVideoLink = [] := hprev 0 (Nat.succ_pos _)
      simp only [List.getD_cons_succ] at hcur ⊢
      show getAllVideoElements (r :: (rest.take (j + 1) ++ tail)) = _
      rw [getAllVideoElements_cons_empty _ _ h0]
      exact ih j (by simpa using hi)
        (fun k hk => by
          have := hprev (k + 1) (by omega)
          simpa using this) hcur tail

/-- C6: the selector cascade evaluates strategies strictly in order and
returns the filtered result set of the first strategy whose filtered set
is non-empty; the result is unchanged under arbitrary replacement of the
later strategies (they are never consulted); when every strategy's
filtered set is empty it returns the empty list — and being a total
function it never raises. -/
theorem selectorCascadeShortCircuit (rs : List (List Elem)) (i : ℕ)
    (hi : i < rs.length)
    (hprev : ∀ j, j < i → (rs.getD j []).filter isValidVideoLink = [])
    (hcur : ¬ (rs.getD i []).filter isValidVideoLink = []) :
    (∀ tail, getAllVideoElements (rs.take (i + 1) ++ tail) =
      (rs.getD i []).filter isValidVideoLink) ∧
    getAllVideoElements rs = (rs.getD i []).filter isValidVideoLink ∧
    (∀ rs' : List (List Elem),
      (∀ r ∈ rs', r.filter isValidVideoLink = []) →
      getAllVideoElements rs' = []) := by
  have hfirst := getAllVideoElements_first rs i hi hprev hcur
  refine ⟨hfirst, ?_, getAllVideoElements_all_empty⟩
  conv_lhs => rw [show rs = rs.take (i + 1) ++ rs.drop (i + 1) from
    (List.take_append_drop _ _).symm]
  exact hfirst (rs.drop (i + 1))

/-- Witness for C6: strategies 0-1 yield empty filtered sets, strategy 2
succeeds, and the cascade returns exactly strategy 2's filtered set. -/
theorem selectorCascadeShortCircuit_witness :
    getAllVideoElements cascadeFixture =
      (cascadeFixture.getD 2 []).filter isValidVideoLink :=
  (selectorCascadeShortCircuit cascadeFixture 2 (by decide)
    (fun j hj => by interval_cases j <;> decide) (by decide)).2.1

theorem dedupByKeyAux_cons {α β : Type} [DecidableEq β] (key : α → β)
    (seen : List β) (a : α) (rest : List α) :
    dedupByKeyAux key seen (a :: rest) =
      if key a ∈ seen then dedupByKeyAux key seen rest
      else a :: dedupByKeyAux key (key a :: seen) rest := rfl

theorem collectUniqueLinks_eq_dedup :
    ∀ (l : List Elem) (seen : List Str),
      collectUniqueLinks seen l =
        dedupByKeyAux id seen
          ((l.map Elem.href).filter (fun h => decide (¬ h = []))) := by
  intro l
  induction l with
  | nil => intro seen; rfl
  | cons a rest ih =>
    intro seen
    unfold collectUniqueLinks
    simp only [List.map_cons, List.filter_cons]
    by_cases h1 : a.href = []
    · rw [if_neg (fun hc => hc.1 h1), if_neg (by simpa using h1), ih seen]
    · by_cases h2 : a.href ∈ seen
      · rw [if_neg (fun hc => hc.2 h2), if_pos (by simpa using h1),
          dedupByKeyAux_cons, if_pos (show id a.href ∈ seen from h2), ih seen]
      · rw [if_pos ⟨h1, h2⟩, if_pos (by simpa using h1), dedupByKeyAux_cons,
          if_neg (show ¬ id a.href ∈ seen from h2), ih (a.href :: seen)]
        rfl

/-- The scroll loop re-queried with an unchanged result set: three
no-growth iterations, then the stability ceiling stops the loop. -/
theorem scrollLoop_stagnant (query : ℕ → List Elem) (init : List Elem)
    (hq : ∀ n, query n = init) (hlen : init.length < 100) :
    scrollLoop query ⟨init, 0, 0⟩ = ⟨init, 3, 3⟩ := by
  have step : ∀ a c, a < maxScrollAttempts → c < maxConsecutiveNoChanges →
      scrollLoop query ⟨init, a, c⟩ = scrollLoop query ⟨init, a + 1, c + 1⟩ := by
    intro a c ha hc
    rw [scrollLoop.eq_def, dif_pos ⟨hlen, ha, hc⟩]
    simp [hq]
  have final : scrollLoop query ⟨init, 3, 3⟩ = ⟨init, 3, 3⟩ := by
    rw [scrollLoop.eq_def, dif_neg (fun hc => by
      have h3 : (3 : ℕ) < 3 := hc.2.2
      omega)]
  rw [step 0 0 (by decide) (by decide), step 1 1 (by decide) (by decide),
    step 2 2 (by decide) (by decide), final]

theorem collectUniqueLinks_of_nodup :
    ∀ (l : List Elem) (seen : List Str),
      (∀ e ∈ l, ¬ e.href = [] ∧ e.href ∉ seen) →
      (l.map Elem.href).Nodup →
      collectUniqueLinks seen l = l.map Elem.href := by
  intro l
  induction l with
  | nil => intro seen _ _; rfl
  | cons a rest ih =>
    intro seen h hnd
    obtain ⟨ha1, ha2⟩ := h a (List.mem_cons_self _ _)
    unfold collectUniqueLinks
    rw [if_pos ⟨ha1, ha2⟩]
    simp only [List.map_cons]
    congr 1
    simp only [List.map_cons, List.nodup_cons] at hnd
    apply ih
    · intro e he
      obtain ⟨h1, h2⟩ := h e (List.mem_cons_of_mem _ he)
      refine ⟨h1, fun hc => ?_⟩
      rcases List.mem_cons.mp hc with hc | hc
      · exact hnd.1 (hc ▸ List.mem_map_of_mem Elem.href he)
      · exact h2 hc
    · exact hnd.2

/-- C4 (amended): a source that always re-delivers exactly its initial
result set, when that set holds fewer than 100 elements with distinct
non-empty URLs, makes the scroll loop stop after exactly
`maxConsecutiveNoChanges` (3) no-growth iterations — 3 attempts, 3
consecutive no-change counts — and the collector returns all of the
initial items' URLs. -/
theorem collectorStableSource (init : List Elem) (query : ℕ → List Elem)
    (hq : ∀ n, query n = init) (hlen : init.length < 100)
    (hnodup : (init.map Elem.href).Nodup)
    (hne : ∀ e ∈ init, ¬ e.href = []) :
    (scrollLoop query ⟨init, 0, 0⟩).scrollAttempts = 3 ∧
    (scrollLoop query ⟨init, 0, 0⟩).consecutiveNoChangeCount = 3 ∧
    collectVideoLinks init query = init.map Elem.href := by
  have hs := scrollLoop_stagnant query init hq hlen
  refine ⟨by rw [hs], by rw [hs], ?_⟩
  unfold collectVideoLinks
  rw [hs]
  show (collectUniqueLinks [] init).take 100 = init.map Elem.href
  rw [collectUniqueLinks_of_nodup init []
    (fun e he => ⟨hne e he, List.not_mem_nil _⟩) hnodup]
  exact List.take_of_length_le (by rw [List.length_map]; omega)

/-- Witness for C4: a stable four-element source stops after exactly 3
no-growth iterations and yields the four URLs. -/
theorem collectorStableSource_witness :
    (scrollLoop (fun _ => smallInit) ⟨smallInit, 0, 0⟩).scrollAttempts = 3 ∧
    (scrollLoop (fun _ => smallInit) ⟨smallInit, 0, 0⟩).consecutiveNoChangeCount
      = 3 ∧
    collectVideoLinks smallInit (fun _ => smallInit) =
      smallInit.map Elem.href :=
  collectorStableSource smallInit (fun _ => smallInit) (fun _ => rfl)
    (by decide) (by decide) (by decide)

/-- Counterexample to C4 as stated: a source that never grows beyond its
initial contents but whose initial result set already holds 100 elements
makes the loop stop after 0 iterations, not 3. -/
theorem collectorStableSource_cex :
    ¬ ((scrollLoop (fun _ => bigInit) ⟨bigInit, 0, 0⟩).scrollAttempts = 3) := by
  have hlen : bigInit.length = 100 := by simp [bigInit]
  rw [scrollLoop.eq_def, dif_neg (fun hc => by
    have h := hc.1
    rw [hlen] at h
    omega)]
  simp

/-- C5: the collector's output is the first 100 unique non-empty URLs of
the collected element list, in first-discovery order (it equals the
first-occurrence subsequence, truncated to 100), contains no duplicates,
and is a sublist of the collected URLs. -/
theorem collectorOutputUnique (initial : List Elem) (query : ℕ → List Elem) :
    (collectVideoLinks initial query).Nodup ∧
    (collectVideoLinks initial query).length ≤ 100 ∧
    collectVideoLinks initial query =
      (firstOccurrences
        (((scrollLoop query ⟨initial, 0, 0⟩).videoElements.map Elem.href).filter
          (fun h => decide (¬ h = [])))).take 100 ∧
    (collectVideoLinks initial query).Sublist
      ((scrollLoop query ⟨initial, 0, 0⟩).videoElements.map Elem.href) := by
  unfold collectVideoLinks
  rw [collectUniqueLinks_eq_dedup]
  have hnodup := (dedupByKeyAux_keys id
    (((scrollLoop query ⟨initial, 0, 0⟩).videoElements.map Elem.href).filter
      (fun h => decide (¬ h = []))) []).1
  rw [List.map_id] at hnodup
  refine ⟨List.Nodup.sublist (List.take_sublist _ _) hnodup,
    List.length_take_le _ _, ?_, ?_⟩
  · congr 1
    rw [dedupById_eq_firstOccurrences]
    congr 1
    apply List.filter_eq_self.mpr
    intro b _
    simp
  · exact (List.take_sublist _ _).trans
      ((dedupByKeyAux_sublist id _ []).trans (List.filter_sublist _))

/-! ## Keyword matching modes -/

theorem occursAtB_eq (k t : Str) (i : ℕ) :
    occursAtB k t i = true ↔ (t.drop i).take k.length = k := by
  unfold occursAtB
  exact decide_eq_true_iff

theorem occursAt_length_le (k t : Str) (i : ℕ) (hi : i ≤ t.length)
    (h : (t.drop i).take k.length = k) : i + k.length ≤ t.length := by
  have hlen := congrArg List.length h
  rw [List.length_take, List.length_drop] at hlen
  have h2 := min_eq_left_iff.mp hlen
  omega

theorem jsIncludes_iff (t k : Str) :
    jsIncludes t k = true ↔ ∃ pre post, t = pre ++ k ++ post := by
  unfold jsIncludes jsIndexOf
  cases hf : firstOccurIdx t k with
  | none =>
    simp only [decide_eq_true_iff]
    constructor
    · intro h
      exact absurd trivial h
    · rintro ⟨pre, post, rfl⟩
      exfalso
      unfold firstOccurIdx at hf
      rw [List.find?_eq_none] at hf
      refine hf pre.length ?_ ?_
      · rw [List.mem_range]
        have hlen : (pre ++ k ++ post).length =
            pre.length + k.length + post.length := by
          simp only [List.length_append]
        omega
      · apply (occursAtB_eq _ _ _).mpr
        rw [List.append_assoc, List.drop_left, List.take_left]
  | some i =>
    have hocc : occursAtB k t i = true := List.find?_some hf
    have hO := (occursAtB_eq k t i).mp hocc
    constructor
    · intro _
      refine ⟨t.take i, t.drop (i + k.length), ?_⟩
      conv_lhs => rw [← List.take_append_drop i t]
      rw [List.append_assoc]
      congr 1
      conv_lhs => rw [← List.take_append_drop k.length (t.drop i)]
      rw [hO, List.drop_drop]
    · intro _
      simp only [decide_eq_true_iff]
      omega

theorem wordBoundaryTest_iff (k t : Str) :
    wordBoundaryTest k t = true ↔
      ∃ i, i + k.length ≤ t.length ∧ (t.drop i).take k.length = k ∧
        (i = 0 ∨ isAlnum (t.getD (i - 1) ' ') = false) ∧
        (i + k.length = t.length ∨
          isAlnum (t.getD (i + k.length) ' ') = false) := by
  unfold wordBoundaryTest
  rw [List.any_eq_true]
  constructor
  · rintro ⟨i, hmem, hcond⟩
    rw [List.mem_range] at hmem
    simp only [Bool.and_eq_true, Bool.or_eq_true, decide_eq_true_iff,
      Bool.not_eq_true'] at hcond
    obtain ⟨⟨hocc, hleft⟩, hright⟩ := hcond
    have hO := (occursAtB_eq k t i).mp hocc
    exact ⟨i, occursAt_length_le k t i (by omega) hO, hO, hleft, hright⟩
  · rintro ⟨i, hlen, hO, hleft, hright⟩
    refine ⟨i, by rw [List.mem_range]; omega, ?_⟩
    simp only [Bool.and_eq_true, Bool.or_eq_true, decide_eq_true_iff,
      Bool.not_eq_true']
    exact ⟨⟨(occursAtB_eq k t i).mpr hO, hleft⟩, hright⟩

/-- C7: keyword matching obeys the `exactPhrase` flag — exact mode is
case-insensitive substring containment, the default mode requires the
occurrence to be flanked by non-alphanumeric characters or string
boundaries; the two modes disagree on keyword `gent` against `the agent`:
exact matches, word-boundary does not. -/
theorem keywordModesCorrect :
    (∀ kw text : Str,
      keywordFoundIn true kw text = true ↔ SubstringCI kw text) ∧
    (∀ kw text : Str,
      keywordFoundIn false kw text = true ↔ WordBoundaryCI kw text) ∧
    keywordFoundIn true "gent".data "the agent".data = true ∧
    keywordFoundIn false "gent".data "the agent".data = false := by
  refine ⟨?_, ?_, by decide, by decide⟩
  · intro kw text
    exact jsIncludes_iff (toLowerStr text) (toLowerStr kw)
  · intro kw text
    exact wordBoundaryTest_iff (toLowerStr kw) (toLowerStr text)

/-- Witness for C10: a concrete match on a short-form URL carries the
appended `&t=` offset, and no question mark appears anywhere in it. -/
theorem matchUrlAmpersand_witness :
    wMatch.url = shortsUrl ++ timeSuffix ++ jsNumToStr wMatch.preciseTimeSeconds ∧
      ('?' ∈ wMatch.url ↔ '?' ∈ shortsUrl) :=
  matchUrlAmpersand ["agent".data] true shortsUrl [wSeg] wMatch (by
    rw [show uniqueMatches (keywordScan ["agent".data] true shortsUrl [wSeg]) =
      [wMatch] from rfl]
    exact List.mem_singleton.mpr rfl)

/-! ## Segment durations and precise seconds -/

theorem flatMap_cons_eq (x : ℕ) (xs : List ℕ) (f : ℕ → List KeywordMatch) :
    (x :: xs).flatMap f = f x ++ xs.flatMap f := rfl

theorem flatMap_map_succ (l : List ℕ) (f : ℕ → List KeywordMatch) :
    (l.map Nat.succ).flatMap f = l.flatMap (fun i => f (i + 1)) := by
  induction l with
  | nil => rfl
  | cons x xs ihx =>
    simp only [List.map_cons]
    rw [flatMap_cons_eq, flatMap_cons_eq, ihx]

theorem endTimeOf_cons_succ (seg : Segment) (rest : List Segment) (i : ℕ) :
    endTimeOf (seg :: rest) (i + 1) = endTimeOf rest i := by
  unfold endTimeOf
  simp only [List.length_cons, List.getD_cons_succ]
  by_cases h : i + 1 < rest.length
  · rw [if_pos (by omega), if_pos h]
  · rw [if_neg (by omega), if_neg h]

theorem keywordScan_eq_flatMap (kws : List Str) (ex : Bool) (url : Str) :
    ∀ segs : List Segment,
      keywordScan kws ex url segs =
        (List.range segs.length).flatMap
          (fun i => segmentMatches kws ex url (segs.getD i default)
            (endTimeOf segs i)) := by
  intro segs
  induction segs with
  | nil => rfl
  | cons seg rest ih =>
    rw [keywordScan_cons, ih]
    simp only [List.length_cons]
    rw [List.range_succ_eq_map, flatMap_cons_eq, flatMap_map_succ]
    congr 1
    · cases rest with
      | nil => rfl
      | cons next rest2 =>
        unfold endTimeOf
        rw [if_pos (show 0 + 1 < (seg :: next :: rest2).length by
          simp [List.length_cons])]
        rfl
    · congr 1
      funext i
      rw [List.getD_cons_succ, endTimeOf_cons_succ]

theorem estimateKeywordPosition_isSome (text kw : Str) (h : ¬ text = []) :
    ∃ p : ℚ, estimateKeywordPosition text kw = some p := by
  simp only [estimateKeywordPosition]
  by_cases hidx : jsIndexOf (toLowerStr text) (toLowerStr kw) = -1
  · rw [if_pos hidx]
    exact ⟨0, rfl⟩
  · rw [if_neg hidx]
    have hne : ¬ (((toLowerStr text).length : ℚ) = 0) := by
      have hlen : (toLowerStr text).length = text.length := List.length_map _ _
      have hpos : 0 < text.length := List.length_pos.mpr h
      rw [hlen]
      exact_mod_cast Nat.pos_iff_ne_zero.mp hpos
    unfold jsDiv
    rw [if_neg hne]
    exact ⟨_, rfl⟩

theorem segmentMatches_zero_duration (kws : List Str) (ex : Bool) (url : Str)
    (seg : Segment) (n : ℕ) (m : KeywordMatch)
    (hts : timestampToSeconds seg.timestamp = some (n : ℚ))
    (htext : ¬ seg.text = [])
    (hm : m ∈ segmentMatches kws ex url seg (timestampToSeconds seg.timestamp)) :
    m.preciseTimeSeconds = some (n : ℤ) := by
  unfold segmentMatches at hm
  simp only [List.mem_filterMap] at hm
  obtain ⟨kw, _, hkw⟩ := hm
  split at hkw
  · have h := Option.some_inj.mp hkw
    rw [← h]
    show jsRound (jsAdd (timestampToSeconds seg.timestamp)
      (jsMul (estimateKeywordPosition seg.text kw)
        (jsSub (timestampToSeconds seg.timestamp)
          (timestampToSeconds seg.timestamp)))) = some (n : ℤ)
    obtain ⟨p, hp⟩ := estimateKeywordPosition_isSome seg.text kw htext
    rw [hts, hp]
    simp [jsSub, jsMul, jsAdd, jsRound, round_natCast]
  · exact absurd hkw (by simp)

/-- C1 (amended): for every segment `i` the matcher computes
`startSeconds` from segment `i`'s timestamp and `endSeconds` from segment
`i + 1`'s start (or `start + 5` for the last segment) and uses the raw
duration `end - start` in the offset computation; when the duration is
zero the offset vanishes and `preciseSeconds = startSeconds`, but a
negative duration from out-of-order input is used as-is and shifts
`preciseSeconds` before the segment start. -/
theorem matcherDurationStructure :
    (∀ (kws : List Str) (ex : Bool) (url : Str) (segs : List Segment),
      keywordScan kws ex url segs =
        (List.range segs.length).flatMap
          (fun i => segmentMatches kws ex url (segs.getD i default)
            (endTimeOf segs i))) ∧
    (∀ (kws : List Str) (ex : Bool) (url : Str) (seg : Segment) (n : ℕ)
      (m : KeywordMatch), timestampToSeconds seg.timestamp = some (n : ℚ) →
      ¬ seg.text = [] →
      m ∈ segmentMatches kws ex url seg (timestampToSeconds seg.timestamp) →
      m.preciseTimeSeconds = some (n : ℤ)) :=
  ⟨fun kws ex url => keywordScan_eq_flatMap kws ex url,
   fun kws ex url seg n m hts htext hm =>
     segmentMatches_zero_duration kws ex url seg n m hts htext hm⟩

theorem tts_0010 : timestampToSeconds "00:10".data = some (10 : ℚ) := by
  have hs : splitOnColon "00:10".data = ["00".data, "10".data] := by decide
  unfold timestampToSeconds
  rw [hs]
  simp [jsNumber_digits "00".data 0 (by decide) (by decide),
    jsNumber_digits "10".data 10 (by decide) (by decide), jsAdd, jsMul]

theorem tts_0005 : timestampToSeconds "00:05".data = some (5 : ℚ) := by
  have hs : splitOnColon "00:05".data = ["00".data, "05".data] := by decide
  unfold timestampToSeconds
  rw [hs]
  simp [jsNumber_digits "00".data 0 (by decide) (by decide),
    jsNumber_digits "05".data 5 (by decide) (by decide), jsAdd, jsMul]

theorem lower_abagent_len : (toLowerStr "ab agent".data).length = 8 := by decide

theorem estimate_abagent :
    estimateKeywordPosition "ab agent".data "agent".data =
      some (3 / 8 : ℚ) := by
  simp only [estimateKeywordPosition]
  rw [show jsIndexOf (toLowerStr "ab agent".data)
    (toLowerStr "agent".data) = (3 : ℤ) from by decide]
  rw [if_neg (by decide)]
  unfold jsDiv
  rw [lower_abagent_len]
  rw [if_neg (by norm_num)]
  congr 1

theorem cexPts_eq : cexPts = some 8 := by
  unfold cexPts
  rw [tts_0010, tts_0005, estimate_abagent]
  simp only [jsSub, jsAdd, jsMul, jsRound]
  congr 1
  rw [round_eq]
  rw [show ((10 : ℚ) + 3 / 8 * (5 - 10) + 1 / 2) = 69 / 8 from by norm_num]
  rw [Int.floor_eq_iff]
  norm_num

/-- Counterexample to C1 as stated: on out-of-order segments the first
segment's duration is `-5` and the code uses it raw, so the retained
match carries `preciseSeconds = 8`, not the claimed
`startSeconds = 10`. -/
theorem matcherDuration_cex :
    (keywordScan ["agent".data] true [] outOfOrderSegs).map
        KeywordMatch.preciseTimeSeconds = [some 8] ∧
    timestampToSeconds "00:10".data = some 10 ∧ ¬ ((8 : ℤ) = 10) := by
  refine ⟨?_, tts_0010, by decide⟩
  rw [show (keywordScan ["agent".data] true [] outOfOrderSegs).map
      KeywordMatch.preciseTimeSeconds = [cexPts] from rfl]
  rw [cexPts_eq]

/-- Witness for C1 (amended): a segment whose end time equals its own
start (zero duration) yields `preciseSeconds` equal to the parsed start,
10. -/
theorem matcherDurationStructure_witness :
    zMatch.preciseTimeSeconds = some ((10 : ℕ) : ℤ) :=
  matcherDurationStructure.2 ["agent".data] true "u".data wSeg 10 zMatch
    (by rw [show wSeg.timestamp = "00:10".data from rfl, tts_0010]; norm_num)
    (by decide)
    (by
      rw [show segmentMatches ["agent".data] true "u".data wSeg
        (timestampToSeconds wSeg.timestamp) = [zMatch] from rfl]
      exact List.mem_singleton.mpr rfl)
